import Mathlib

/-!
Verification of the poker core of the `llm-mafia-game` repository.

The Python sources embedded here:
* `src/poker/card.py` — `Card`, `Deck`, `HandEvaluator`
* `src/poker/poker_player.py` — `PokerPlayer.parse_action`
* `src/poker/poker_game.py` — `PokerGame.post_blinds`, `execute_betting_round`,
  `determine_winners`, `award_pot`

Conventions of the embedding:
* A card's `value` is its `value_index` into `VALUES = ["2",…,"10","J","Q","K","A"]`,
  so `0 = "2"`, …, `8 = "10"`, `9 = "J"`, `10 = "Q"`, `11 = "K"`, `12 = "A"`;
  `suit` indexes `SUITS = ["♠","♥","♦","♣"]`.
* Python's `list.sort` / `sorted` are stable; the stable order for a given key is
  unique, so they are modelled by a stable insertion sort (`pySortDesc`/`pySortAsc`).
* Python `dict`s preserve insertion order; `valueGroups`/`suitGroups` keep keys in
  first-occurrence order and append cards to the end of their group.
* Python chip amounts are unbounded signed integers, modelled by `Int`
  (`//` is `Int.fdiv`, `%` is `Int.fmod`).
* Hand values are Python floats of the form `base + k/14` with `base ≤ 9`, `k ≤ 12`,
  modelled exactly by `ℚ`: two such floats compare the same way as the rationals
  they round from, because distinct rationals of this shape differ by at least
  `1/14` while the float rounding error is below `2⁻⁴⁵`.
* A `while True:` loop is modelled with explicit fuel; `none` means the loop has
  not terminated within the given fuel.
-/

namespace LLMPoker

/-- One playing card: `value` is the Python `value_index` (0 = "2" … 12 = "A"),
`suit` indexes the four suits. -/
structure Card where
  value : Fin 13
  suit : Fin 4
deriving DecidableEq, Repr

instance : Inhabited Card := ⟨⟨0, 0⟩⟩

/-- Stable descending insertion, by key: `a` is placed before the first element
whose key is `≤ key a`, so earlier elements with an equal key stay first.
This is the unique stable descending order — the behaviour of Python's
`list.sort(reverse=True)` / `sort(key=…, reverse=True)`. -/
def insDesc {α β : Type} [LinearOrder β] (key : α → β) (a : α) : List α → List α
  | [] => [a]
  | b :: bs => if key b ≤ key a then a :: b :: bs else b :: insDesc key a bs

/-- Python's stable sort, descending by key. -/
def pySortDesc {α β : Type} [LinearOrder β] (key : α → β) (l : List α) : List α :=
  l.foldr (insDesc key) []

/-- Stable ascending insertion by key (for `sort(key=…)` without `reverse`). -/
def insAsc {α β : Type} [LinearOrder β] (key : α → β) (a : α) : List α → List α
  | [] => [a]
  | b :: bs => if key a ≤ key b then a :: b :: bs else b :: insAsc key a bs

/-- Python's stable sort, ascending by key. -/
def pySortAsc {α β : Type} [LinearOrder β] (key : α → β) (l : List α) : List α :=
  l.foldr (insAsc key) []

/-- Descending sort of cards by `value_index` (`cards.sort(reverse=True)`). -/
def sortCardsDesc (l : List Card) : List Card :=
  pySortDesc (fun c : Card => c.value.val) l

/-- Insert a card into ordered value-groups: Python `dict` keyed by card value,
keys in first-occurrence order, each card appended to the end of its group. -/
def addToValueGroups (gs : List (Fin 13 × List Card)) (c : Card) :
    List (Fin 13 × List Card) :=
  match gs with
  | [] => [(c.value, [c])]
  | (v, g) :: rest =>
    if v = c.value then (v, g ++ [c]) :: rest else (v, g) :: addToValueGroups rest c

/-- `value_groups` dict of `card.py`, as an insertion-ordered association list. -/
def valueGroups (cards : List Card) : List (Fin 13 × List Card) :=
  cards.foldl addToValueGroups []

/-- Insert a card into ordered suit-groups. -/
def addToSuitGroups (gs : List (Fin 4 × List Card)) (c : Card) :
    List (Fin 4 × List Card) :=
  match gs with
  | [] => [(c.suit, [c])]
  | (s, g) :: rest =>
    if s = c.suit then (s, g ++ [c]) :: rest else (s, g) :: addToSuitGroups rest c

/-- `suit_groups` dict of `_check_flush`. -/
def suitGroups (cards : List Card) : List (Fin 4 × List Card) :=
  cards.foldl addToSuitGroups []

/-- `value_index` of the five royal ranks 10, J, Q, K, A. -/
def royalValues : List (Fin 13) := [8, 9, 10, 11, 12]

/-- `HandEvaluator._check_royal_flush`: first suit (♠,♥,♦,♣ order) whose five
royal cards are all present; returns the constructed royal cards. -/
def checkRoyalFlush (cards : List Card) : Option (List Card) :=
  ((List.finRange 4).find? fun s =>
      royalValues.all fun v => cards.contains ⟨v, s⟩).map
    fun s => royalValues.map fun v => (⟨v, s⟩ : Card)

/-- Window test of `_check_straight_flush` / `_check_straight`:
`all(l[i+j].value_index == l[i].value_index - j for j in range(5))`.
The subtraction is over Python ints, hence `Int`. -/
def isDescRun (l : List Card) (i : Nat) : Bool :=
  (List.range 5).all fun j =>
    ((l.getD (i + j) default).value.val : Int) = ((l.getD i default).value.val : Int) - j

/-- The `for i in range(len(l) - 4)` scan returning the first 5-window that is a
descending run, as `l[i : i+5]`. -/
def findRun (l : List Card) : Option (List Card) :=
  ((List.range (l.length - 4)).find? fun i => isDescRun l i).map
    fun i => (l.drop i).take 5

/-- Sort key of the wheel special case: `0 if value == "A" else value_index + 1`. -/
def wheelKey (c : Card) : Nat := if c.value = 12 then 0 else c.value.val + 1

/-- The A-5 special case shared by `_check_straight_flush` and `_check_straight`:
if an ace is present and at least five of the cards have value in
{A,2,3,4,5}, return those sorted ace-first (and truncated to 5). -/
def checkWheel (l : List Card) : Option (List Card) :=
  if l.any fun c => decide (c.value = 12) then
    let low := l.filter fun c => [(12 : Fin 13), 0, 1, 2, 3].contains c.value
    if 5 ≤ low.length then some ((pySortAsc wheelKey low).take 5) else none
  else none

/-- `_check_straight_flush` restricted to one suit. -/
def checkStraightFlushSuit (cards : List Card) (s : Fin 4) : Option (List Card) :=
  let suited := cards.filter fun c => decide (c.suit = s)
  if 5 ≤ suited.length then
    let sorted := sortCardsDesc suited
    match findRun sorted with
    | some run => some run
    | none => checkWheel sorted
  else none

/-- `HandEvaluator._check_straight_flush`: suits in ♠,♥,♦,♣ order, first match wins. -/
def checkStraightFlush (cards : List Card) : Option (List Card) :=
  (List.finRange 4).findSome? (checkStraightFlushSuit cards)

/-- Outcome of a check helper that can also crash with an `IndexError`
(`kickers[0]` on an empty kicker list). -/
inductive CheckOut where
  | found (cards : List Card)
  | nomatch
  | err
deriving DecidableEq, Repr

/-- `HandEvaluator._check_four_of_a_kind`: first value group of size exactly 4,
plus the highest card of another value. `kickers[0]` on an empty list is the
Python `IndexError`, modelled by `.err`. -/
def checkFourOfAKind (cards : List Card) : CheckOut :=
  match (valueGroups cards).find? fun g => g.2.length = 4 with
  | none => .nomatch
  | some (v, group) =>
    let kickers := sortCardsDesc (cards.filter fun c => decide (c.value ≠ v))
    match kickers.head? with
    | some k => .found (group ++ [k])
    | none => .err

/-- Loop body of `_check_full_house` over groups sorted by value descending,
carrying the `three_of_a_kind` and `pair` accumulators. -/
def fullHouseGo : List (Fin 13 × List Card) → Option (List Card) →
    Option (List Card) → Option (List Card)
  | [], _, _ => none
  | (_, g) :: rest, three, pair =>
    let takeThree := 3 ≤ g.length ∧ three = none
    let three' := if takeThree then some (g.take 3) else three
    let pair' := if ¬takeThree ∧ 2 ≤ g.length ∧ pair = none then some (g.take 2) else pair
    match three', pair' with
    | some t, some p => some (t ++ p)
    | t, p => fullHouseGo rest t p

/-- `HandEvaluator._check_full_house`. -/
def checkFullHouse (cards : List Card) : Option (List Card) :=
  fullHouseGo (pySortDesc (fun g : Fin 13 × List Card => g.1.val) (valueGroups cards))
    none none

/-- `HandEvaluator._check_flush`: first suit group with ≥ 5 cards, top five. -/
def checkFlush (cards : List Card) : Option (List Card) :=
  ((suitGroups cards).find? fun g => 5 ≤ g.2.length).map
    fun g => (sortCardsDesc g.2).take 5

/-- `unique_values` dict of `_check_straight`: one card per value, first
occurrence kept (the replace-if-greater branch can never fire because equal
values share the same `value_index`). -/
def uniqueByValue (cards : List Card) : List Card :=
  cards.foldl
    (fun acc c => if acc.any fun d => decide (d.value = c.value) then acc else acc ++ [c])
    []

/-- `HandEvaluator._check_straight`. -/
def checkStraight (cards : List Card) : Option (List Card) :=
  let uniq := sortCardsDesc (uniqueByValue cards)
  match findRun uniq with
  | some run => some run
  | none => checkWheel uniq

/-- `HandEvaluator._check_three_of_a_kind`: first value group of size exactly 3
plus the two highest other cards. -/
def checkThreeOfAKind (cards : List Card) : Option (List Card) :=
  ((valueGroups cards).find? fun g => g.2.length = 3).map fun g =>
    g.2 ++ (sortCardsDesc (cards.filter fun c => decide (c.value ≠ g.1))).take 2

/-- `HandEvaluator._check_two_pair`: the two highest pairs (groups truncated to
two cards, tuple-sorted descending by value index) plus the highest remaining
card; `kickers[0]` on an empty list is the Python `IndexError` (`.err`). -/
def checkTwoPair (cards : List Card) : CheckOut :=
  let pairs := (valueGroups cards).filterMap fun g =>
    if 2 ≤ g.2.length then some (g.1, g.2.take 2) else none
  if 2 ≤ pairs.length then
    match pySortDesc (fun p : Fin 13 × List Card => p.1.val) pairs with
    | p0 :: p1 :: _ =>
      let kickers := sortCardsDesc (cards.filter fun c =>
        decide (c.value ≠ p0.1) && decide (c.value ≠ p1.1))
      match kickers.head? with
      | some k => .found (p0.2 ++ p1.2 ++ [k])
      | none => .err
    | _ => .nomatch
  else .nomatch

/-- `HandEvaluator._check_pair`: first value group of size exactly 2 plus the
three highest other cards. -/
def checkPair (cards : List Card) : Option (List Card) :=
  ((valueGroups cards).find? fun g => g.2.length = 2).map fun g =>
    g.2 ++ (sortCardsDesc (cards.filter fun c => decide (c.value ≠ g.1))).take 3

/-- `HandEvaluator._check_high_card`: the five highest cards. -/
def checkHighCard (cards : List Card) : List Card :=
  (sortCardsDesc cards).take 5

/-- The ten hand categories of `PokerHand` in `poker_templates.py`. -/
inductive PokerHand where
  | HIGH_CARD
  | PAIR
  | TWO_PAIR
  | THREE_OF_A_KIND
  | STRAIGHT
  | FLUSH
  | FULL_HOUSE
  | FOUR_OF_A_KIND
  | STRAIGHT_FLUSH
  | ROYAL_FLUSH
deriving DecidableEq, Repr

/-- Position of a category in the fixed ten-category order (high card = 0 …
royal flush = 9); also the integer part added to each category's hand value. -/
def handOrder : PokerHand → Nat
  | .HIGH_CARD => 0
  | .PAIR => 1
  | .TWO_PAIR => 2
  | .THREE_OF_A_KIND => 3
  | .FOUR_OF_A_KIND => 7
  | .STRAIGHT => 4
  | .FLUSH => 5
  | .FULL_HOUSE => 6
  | .STRAIGHT_FLUSH => 8
  | .ROYAL_FLUSH => 9

/-- `base + cards[0].value_index / 14`, the hand value produced for every
non-royal category in `evaluate_hand`; `none` models the `IndexError` of
indexing `[0]` into an empty list. -/
def valueOf (r : PokerHand) (base : ℚ) (cards : List Card) :
    Option (PokerHand × ℚ × List Card) :=
  cards.head?.map fun c => (r, base + (c.value.val : ℚ) / 14, cards)

/-- Body of `HandEvaluator.evaluate_hand` on the combined card list: category
checks from strongest to weakest, first match wins. `none` models the uncaught
Python exceptions (`IndexError` inside a check or at `high_card[0]`), which
only arise on non-standard inputs. -/
def evaluateAll (allCards : List Card) : Option (PokerHand × ℚ × List Card) :=
  match checkRoyalFlush allCards with
  | some h => some (.ROYAL_FLUSH, 9, h)
  | none =>
  match checkStraightFlush allCards with
  | some h => valueOf .STRAIGHT_FLUSH 8 h
  | none =>
  match checkFourOfAKind allCards with
  | .found h => valueOf .FOUR_OF_A_KIND 7 h
  | .err => none
  | .nomatch =>
  match checkFullHouse allCards with
  | some h => valueOf .FULL_HOUSE 6 h
  | none =>
  match checkFlush allCards with
  | some h => valueOf .FLUSH 5 h
  | none =>
  match checkStraight allCards with
  | some h => valueOf .STRAIGHT 4 h
  | none =>
  match checkThreeOfAKind allCards with
  | some h => valueOf .THREE_OF_A_KIND 3 h
  | none =>
  match checkTwoPair allCards with
  | .found h => valueOf .TWO_PAIR 2 h
  | .err => none
  | .nomatch =>
  match checkPair allCards with
  | some h => valueOf .PAIR 1 h
  | none =>
    (checkHighCard allCards).head?.map fun c =>
      (.HIGH_CARD, (c.value.val : ℚ) / 14, checkHighCard allCards)

/-- `HandEvaluator.evaluate_hand`: combine hole and community cards
(`all_cards = hole_cards + community_cards`) and run the category checks. -/
def evaluateHand (holeCards communityCards : List Card) :
    Option (PokerHand × ℚ × List Card) :=
  evaluateAll (holeCards ++ communityCards)

/-! ### Deck (`card.py`, class `Deck`) -/

/-- One iteration of the `deal` loop: `dealt_cards.append(self.cards.pop())`,
popping from the end of the deck list. -/
def dealGo : Nat → List Card × List Card → List Card × List Card
  | 0, s => s
  | k + 1, (dealt, deck) => dealGo k (dealt ++ deck.getLast?.toList, deck.dropLast)

/-- `Deck.deal`: raises (`.1 = none`, deck left as it was) when more cards are
requested than remain, otherwise pops `numCards` cards off the top (end) of the
deck. The second component is the deck contents afterwards. -/
def deal (deck : List Card) (numCards : Nat) : Option (List Card) × List Card :=
  if deck.length < numCards then (none, deck)
  else
    let s := dealGo numCards ([], deck)
    (some s.1, s.2)

/-! ### Betting engine (`poker_game.py`, `poker_player.py`) -/

/-- The `PokerAction` enum of `poker_templates.py`. -/
inductive PokerAction where
  | FOLD
  | CHECK
  | CALL
  | BET
  | RAISE
  | ALL_IN
deriving DecidableEq, Repr

/-- Per-seat mutable state of `PokerPlayer` used by the betting engine.
Chips are Python ints, hence `Int` (nothing in the code stops them from going
negative). -/
structure PlayerState where
  chips : Int
  currentBet : Int
  folded : Bool
  allIn : Bool
deriving DecidableEq, Repr

instance : Inhabited PlayerState := ⟨⟨0, 0, false, false⟩⟩

/-- The `PokerGame` state touched by a betting round: `active_players`, `pot`,
`current_bet`, `min_raise`, `dealer_position`, `current_player_index`, and the
loop-local `last_raiser`. -/
structure GameState where
  players : List PlayerState
  pot : Int
  currentBet : Int
  minRaise : Int
  dealerPosition : Nat
  currentPlayerIndex : Nat
  lastRaiser : Option Nat
deriving DecidableEq, Repr

/-- What the regex layer of `parse_action` extracted from an LLM response:
which of the FOLD/CHECK/CALL/ALL-IN patterns matched first, or — when none of
them matched — whether the BET and RAISE patterns matched and their captured
integers. `betRaise none none` is a fully unparseable response. -/
inductive Intent where
  | fold
  | check
  | call
  | allin
  | betRaise (betAmount : Option Nat) (raiseAmount : Option Nat)
deriving DecidableEq, Repr

/-- Fall-through default of `parse_action`: check if nothing is owed, else call
clamped to all-in. -/
def defaultAction (chips amountToCall : Int) : PokerAction × Int :=
  if amountToCall = 0 then (.CHECK, 0)
  else if amountToCall ≥ chips then (.ALL_IN, chips)
  else (.CALL, amountToCall)

/-- BET branch of `parse_action`: raise the amount to `min_raise` if below it,
then clamp to all-in if it reaches the stack. -/
def betBranch (n : Nat) (chips minRaise : Int) : PokerAction × Int :=
  let amount : Int := if (n : Int) < minRaise then minRaise else (n : Int)
  if amount ≥ chips then (.ALL_IN, chips) else (.BET, amount)

/-- RAISE branch of `parse_action`: force at least `amount_to_call + min_raise`,
then clamp to all-in if it reaches the stack. -/
def raiseBranch (n : Nat) (chips amountToCall minRaise : Int) : PokerAction × Int :=
  let amount : Int := if (n : Int) < amountToCall + minRaise then amountToCall + minRaise
    else (n : Int)
  if amount ≥ chips then (.ALL_IN, chips) else (.RAISE, amount)

/-- `PokerPlayer.parse_action`. Note the CHECK branch: with a bet outstanding a
check is turned into `(CALL, amount_to_call)` with NO all-in clamp, unlike the
CALL branch. -/
def parseAction (intent : Intent) (chips amountToCall minRaise : Int) :
    PokerAction × Int :=
  match intent with
  | .fold => (.FOLD, 0)
  | .check => if amountToCall = 0 then (.CHECK, 0) else (.CALL, amountToCall)
  | .call => if amountToCall ≥ chips then (.ALL_IN, chips) else (.CALL, amountToCall)
  | .allin => (.ALL_IN, chips)
  | .betRaise betAmount raiseAmount =>
    match betAmount with
    | some n =>
      if amountToCall = 0 then betBranch n chips minRaise
      else
        match raiseAmount with
        | some m => raiseBranch m chips amountToCall minRaise
        | none => defaultAction chips amountToCall
    | none =>
      match raiseAmount with
      | some m => raiseBranch m chips amountToCall minRaise
      | none => defaultAction chips amountToCall

/-- Sum of all seats' stacks. -/
def stacksSum (players : List PlayerState) : Int :=
  (players.map PlayerState.chips).sum

/-- The action-processing block of `execute_betting_round` (the
`if action == …` chain), acting on seat `i`. -/
def processAction (st : GameState) (i : Nat) (a : PokerAction × Int) : GameState :=
  let p := st.players.getD i default
  match a.1 with
  | .FOLD => { st with players := st.players.set i { p with folded := true } }
  | .CHECK => st
  | .CALL =>
    { st with
      players := st.players.set i
        { p with chips := p.chips - a.2, currentBet := p.currentBet + a.2 }
      pot := st.pot + a.2 }
  | .BET =>
    { st with
      players := st.players.set i
        { p with chips := p.chips - a.2, currentBet := p.currentBet + a.2 }
      pot := st.pot + a.2
      currentBet := a.2
      lastRaiser := some i }
  | .RAISE =>
    { st with
      players := st.players.set i
        { p with chips := p.chips - a.2, currentBet := p.currentBet + a.2 }
      pot := st.pot + a.2
      currentBet := p.currentBet + a.2
      lastRaiser := some i }
  | .ALL_IN =>
    let newBet := p.currentBet + a.2
    let st' :=
      { st with
        players := st.players.set i
          { p with chips := 0, currentBet := newBet, allIn := true }
        pot := st.pot + a.2 }
    if newBet > st.currentBet then { st' with currentBet := newBet, lastRaiser := some i }
    else st'

/-- One accepted action of seat `i` inside the betting loop: compute
`amount_to_call = current_bet - seat.current_bet`, parse the response, and
process the resulting action. -/
def actionStep (st : GameState) (i : Nat) (intent : Intent) : GameState :=
  let p := st.players.getD i default
  processAction st i (parseAction intent p.chips (st.currentBet - p.currentBet) st.minRaise)

/-- A seat that still acts: neither folded nor all-in. -/
def eligible (p : PlayerState) : Bool := !p.folded && !p.allIn

/-- Number of non-folded, non-all-in seats. -/
def countEligible (st : GameState) : Nat := (st.players.filter eligible).length

/-- Number of non-folded seats. -/
def countNonFolded (st : GameState) : Nat :=
  (st.players.filter fun p => !p.folded).length

/-- `all(p.current_bet == 0 for p in active_players if not folded/all_in)`. -/
def allEligibleBetsZero (st : GameState) : Bool :=
  st.players.all fun p => !(eligible p) || decide (p.currentBet = 0)

/-- The `while True` action loop of `execute_betting_round`, driven by an
oracle giving the intent parsed from the `k`-th LLM response of this round.
`none` means the loop did not exit within `fuel` iterations. -/
def bettingLoop (oracle : Nat → Intent) : Nat → Nat → GameState →
    Option (Bool × GameState)
  | 0, _, _ => none
  | fuel + 1, k, st =>
    let n := st.players.length
    let p := st.players.getD st.currentPlayerIndex default
    if p.folded || p.allIn then
      bettingLoop oracle fuel k { st with currentPlayerIndex := (st.currentPlayerIndex + 1) % n }
    else if st.lastRaiser = some st.currentPlayerIndex then
      some (true, st)
    else if st.currentBet = 0 ∧ allEligibleBetsZero st = true ∧
        st.currentPlayerIndex = (st.dealerPosition + 1) % n then
      some (true, st)
    else
      let st' := actionStep st st.currentPlayerIndex (oracle k)
      let st'' := { st' with currentPlayerIndex := (st.currentPlayerIndex + 1) % n }
      if countNonFolded st'' = 1 then some (false, st'')
      else bettingLoop oracle fuel (k + 1) st''

/-- The per-round reset: every seat's `current_bet` and the table's
`current_bet` go to zero. -/
def resetBets (st : GameState) : GameState :=
  { st with players := st.players.map fun p => { p with currentBet := 0 }, currentBet := 0 }

/-- The post-flop seat-positioning loop of `execute_betting_round`: starting at
`start`, advance past folded/all-in seats; `none` once the scan wraps back to
`start` (everyone folded or all-in). -/
def seekEligible (players : List PlayerState) (start : Nat) : Nat → Nat → Option Nat
  | 0, _ => none
  | fuel + 1, j =>
    if eligible (players.getD j default) then some j
    else
      let jNext := (j + 1) % players.length
      if jNext = start then none else seekEligible players start fuel jNext

/-- `PokerGame.execute_betting_round`. Returns `some (continueHand, st)` on
exit, `none` if the action loop never exits within `fuel` iterations. -/
def executeBettingRound (oracle : Nat → Intent) (fuel : Nat) (isPreflop : Bool)
    (st0 : GameState) : Option (Bool × GameState) :=
  if countEligible st0 ≤ 1 then some (false, st0)
  else
    let st := resetBets st0
    let positioned : Option GameState :=
      if isPreflop then some st
      else
        let start := (st.dealerPosition + 1) % st.players.length
        (seekEligible st.players start (st.players.length + 1) start).map
          fun j => { st with currentPlayerIndex := j }
    match positioned with
    | none => some (false, st)
    | some st1 => bettingLoop oracle fuel 0 { st1 with lastRaiser := none }

/-- `PokerGame.post_blinds` (clamping each blind to the seat's stack). -/
def postBlinds (smallBlind bigBlind : Int) (st : GameState) : GameState :=
  let n := st.players.length
  let sbPos := (st.dealerPosition + 1) % n
  let sb := st.players.getD sbPos default
  let sbAmt := min smallBlind sb.chips
  let st1 :=
    { st with
      players := st.players.set sbPos { sb with chips := sb.chips - sbAmt, currentBet := sbAmt }
      pot := st.pot + sbAmt }
  let bbPos := (st.dealerPosition + 2) % n
  let bb := st1.players.getD bbPos default
  let bbAmt := min bigBlind bb.chips
  { st1 with
    players := st1.players.set bbPos { bb with chips := bb.chips - bbAmt, currentBet := bbAmt }
    pot := st1.pot + bbAmt
    currentBet := bbAmt }

/-- `PokerGame.determine_winners`, showdown branch, on the list of
`(seat index, hand value)` pairs in table order: stable-sort descending by hand
value, then keep everyone tied with the best value. -/
def determineWinners (entries : List (Nat × ℚ)) : List Nat :=
  match pySortDesc (fun e : Nat × ℚ => e.2) entries with
  | [] => []
  | top :: rest => ((top :: rest).filter fun e => decide (e.2 = top.2)).map Prod.fst

/-- One step of `award_pot`: winner at list position `i` receives
`pot // n` plus one extra chip when `i < pot % n`. -/
def awardGo (per rem : Int) : List Nat → Nat → List PlayerState → List PlayerState
  | [], _, players => players
  | w :: ws, i, players =>
    let p := players.getD w default
    let extra : Int := if (i : Int) < rem then 1 else 0
    awardGo per rem ws (i + 1) (players.set w { p with chips := p.chips + (per + extra) })

/-- `PokerGame.award_pot` on the winning seat indices (in list order). -/
def awardPot (st : GameState) (winners : List Nat) : GameState :=
  if winners.isEmpty then st
  else
    let per := st.pot.fdiv winners.length
    let rem := st.pot.fmod winners.length
    { st with players := awardGo per rem winners 0 st.players }

/-! ### Concrete states used in the theorems -/

/-- A fresh 100-chip seat. -/
def freshSeat : PlayerState := ⟨100, 0, false, false⟩

/-- Two 100-chip seats about to start a pre-flop betting round. -/
def twoSeatState : GameState := ⟨[freshSeat, freshSeat], 0, 0, 10, 0, 0, none⟩

/-- A decision source that always answers ALL-IN. -/
def allinOracle : Nat → Intent := fun _ => .allin

/-- The state the all-in round reaches after both seats have pushed: both
all-in, pot 200, action back on seat 0. -/
def bothAllInState : GameState :=
  ⟨[⟨0, 100, false, true⟩, ⟨0, 100, false, true⟩], 200, 100, 10, 0, 0, some 0⟩

/-- `bothAllInState` with the action on seat 1. -/
def bothAllInState1 : GameState := { bothAllInState with currentPlayerIndex := 1 }

/-- Three 100-chip seats entering a post-flop round, dealer at seat 0. -/
def threeSeatState : GameState := ⟨[freshSeat, freshSeat, freshSeat], 30, 0, 10, 0, 0, none⟩

/-- Decision source for the negative-stack run: the first response is `BET 10`,
every later response is `CHECK`. -/
def betThenCheckOracle : Nat → Intent :=
  fun k => if k = 0 then .betRaise (some 10) none else .check

/-- A 100-chip seat facing a 5-chip seat, pre-flop. -/
def shortStackState : GameState :=
  ⟨[⟨100, 0, false, false⟩, ⟨5, 0, false, false⟩], 0, 0, 10, 0, 0, none⟩

/-- Three zero-chip seats with an 11-chip pot, for the pot-award witness. -/
def awardDemoState : GameState :=
  ⟨[⟨0, 0, false, false⟩, ⟨0, 0, false, false⟩, ⟨0, 0, false, false⟩], 11, 0, 10, 0, 0, none⟩

/-- Number of remainder chips handed out by `awardGo` to positions
`i, i+1, …, i+len-1`: one chip for each position below `rem`. -/
def extrasFrom (rem : Int) : Nat → Nat → Int
  | _, 0 => 0
  | i, len + 1 => (if (i : Int) < rem then 1 else 0) + extrasFrom rem (i + 1) len

/-! ## Theorems -/

/-- C1: the claim asks that a 7-card wheel evaluate strictly below every other
straight. The code instead values the wheel at `4 + 12/14` (the ace, which the
wheel sort puts first, keeps `value_index` 12), the same value an Ace-high
straight gets and *above* the `4 + 4/14` of a 6-high straight: on the spec's
own fixture `{A♠,2♥,3♦,4♣,5♠,9♥,9♦}` the wheel is a Straight ranked above, not
below, the 6-high straight `{2♠,6♥,3♦,4♣,5♠,9♥,9♦}`. -/
theorem wheel_not_lowest_straight :
    (evaluateHand [⟨12, 0⟩, ⟨0, 1⟩] [⟨1, 2⟩, ⟨2, 3⟩, ⟨3, 0⟩, ⟨7, 1⟩, ⟨7, 2⟩]).map
        (fun r => (r.1, r.2.1)) = some (.STRAIGHT, 4 + 12 / 14) ∧
    (evaluateHand [⟨0, 0⟩, ⟨4, 1⟩] [⟨1, 2⟩, ⟨2, 3⟩, ⟨3, 0⟩, ⟨7, 1⟩, ⟨7, 2⟩]).map
        (fun r => (r.1, r.2.1)) = some (.STRAIGHT, 4 + 4 / 14) ∧
    ¬ ((4 + 12 / 14 : ℚ) < 4 + 4 / 14) := by
  refine ⟨by rfl, by rfl, by norm_num⟩

/-- C2: the claim asks that two Four-of-a-Kind hands with the same quad rank be
ordered by their best kicker. The code's hand value `7 + quad_rank/14` ignores
the kicker: quad aces with a King kicker and quad aces with a Queen kicker
both evaluate to `7 + 12/14`, so the King-kicker hand does not compare
strictly greater — the two hands tie. -/
theorem quads_kicker_not_compared :
    evaluateHand [⟨11, 0⟩, ⟨0, 1⟩] [⟨12, 0⟩, ⟨12, 1⟩, ⟨12, 2⟩, ⟨12, 3⟩, ⟨5, 2⟩]
      = some (.FOUR_OF_A_KIND, 7 + 12 / 14,
          [⟨12, 0⟩, ⟨12, 1⟩, ⟨12, 2⟩, ⟨12, 3⟩, ⟨11, 0⟩]) ∧
    evaluateHand [⟨10, 0⟩, ⟨1, 1⟩] [⟨12, 0⟩, ⟨12, 1⟩, ⟨12, 2⟩, ⟨12, 3⟩, ⟨5, 2⟩]
      = some (.FOUR_OF_A_KIND, 7 + 12 / 14,
          [⟨12, 0⟩, ⟨12, 1⟩, ⟨12, 2⟩, ⟨12, 3⟩, ⟨10, 0⟩]) ∧
    ¬ ((7 + 12 / 14 : ℚ) < (7 + 12 / 14 : ℚ)) := by
  refine ⟨by rfl, by rfl, by norm_num⟩

/-- C3: the claim asks that `evaluate_hand` reject inputs with fewer than 5
cards as a fatal precondition violation. The code has no such guard: on the
two-card input `{A♠, K♥}` it silently returns a normal High Card ranking. -/
theorem short_input_not_guarded :
    evaluateHand [⟨12, 0⟩, ⟨11, 1⟩] []
      = some (.HIGH_CARD, 12 / 14, [⟨12, 0⟩, ⟨11, 1⟩]) := by
  rfl

/-- C4 helper: once every non-folded seat is all-in, the action loop only ever
takes the skip branch, bouncing the index between the two seats for ever. -/
theorem bothAllIn_loop_diverges :
    ∀ (fuel k : Nat),
      bettingLoop allinOracle fuel k bothAllInState = none ∧
      bettingLoop allinOracle fuel k bothAllInState1 = none := by
  intro fuel
  induction fuel with
  | zero => exact fun _ => ⟨rfl, rfl⟩
  | succ n ih =>
    intro k
    constructor
    · calc bettingLoop allinOracle (n + 1) k bothAllInState
          = bettingLoop allinOracle n k bothAllInState1 := rfl
        _ = none := (ih k).2
    · calc bettingLoop allinOracle (n + 1) k bothAllInState1
          = bettingLoop allinOracle n k bothAllInState := rfl
        _ = none := (ih k).1

/-- C4: the claim asks every betting round to terminate for every decision
sequence, including all seats going all-in mid-round. It fails: with two
100-chip seats that both answer ALL-IN, the loop's skip branch (which runs
before every exit test) cycles between the two all-in seats for ever, so the
round never exits no matter how much fuel it is given. -/
theorem betting_round_diverges_when_both_allin :
    ∀ fuel : Nat, executeBettingRound allinOracle fuel true twoSeatState = none := by
  intro fuel
  match fuel with
  | 0 => rfl
  | 1 => rfl
  | (n + 2) =>
    calc executeBettingRound allinOracle (n + 2) true twoSeatState
        = bettingLoop allinOracle n 2 bothAllInState := rfl
      _ = none := (bothAllIn_loop_diverges n 2).1

/-- C5: the claim asks a no-bet round with ≥ 2 eligible seats to end only after
every eligible seat has acted. The code fails it on the first iteration of any
post-flop round whose first seat to act sits right after the dealer: `current_bet`
and every seat's round bet are zero immediately after the reset, the index
equals `dealer + 1`, so the loop breaks before any decision is requested —
witnessed by the result being the same for every oracle and already reached
with a single loop iteration of fuel. -/
theorem postflop_round_ends_before_anyone_acts :
    ∀ (oracle : Nat → Intent) (fuel : Nat),
      executeBettingRound oracle (fuel + 1) false threeSeatState
        = some (true, { threeSeatState with currentPlayerIndex := 1 }) := by
  intro oracle fuel
  rfl

/-- C7: the claim asks stacks to stay non-negative, with Check-facing-a-bet
clamped to all-in. The code's CHECK branch converts a check into
`(CALL, amount_to_call)` with no all-in clamp: after seat 0 bets 10, seat 1
(holding 5 chips) answers CHECK and ends the round with a stack of −5. -/
theorem check_call_goes_negative :
    (executeBettingRound betThenCheckOracle 3 true shortStackState).map
        (fun r => (r.2.players.getD 1 default).chips) = some (-5) ∧
    ((-5 : Int) < 0) := by
  exact ⟨rfl, by norm_num⟩

/-- C8 helper: each pop of the deal loop moves exactly one card off the end of
the deck. -/
theorem dealGo_lengths :
    ∀ (n : Nat) (dealt deck : List Card), n ≤ deck.length →
      (dealGo n (dealt, deck)).1.length = dealt.length + n ∧
      (dealGo n (dealt, deck)).2.length = deck.length - n := by
  intro n
  induction n with
  | zero => intro dealt deck _; exact ⟨rfl, by simp [dealGo]⟩
  | succ m ih =>
    intro dealt deck h
    have hne : deck ≠ [] := by
      intro he
      rw [he] at h
      simp at h
    have h1 : deck.getLast?.toList.length = 1 := by
      rw [List.getLast?_eq_getLast deck hne]
      rfl
    have h2 : deck.dropLast.length = deck.length - 1 := List.length_dropLast deck
    have hm : m ≤ deck.dropLast.length := by omega
    obtain ⟨ha, hb⟩ := ih (dealt ++ deck.getLast?.toList) deck.dropLast hm
    rw [dealGo]
    constructor
    · rw [ha, List.length_append, h1]
      omega
    · rw [hb, h2]
      omega

/-- C8: `Deck.deal` raises exactly when more cards are requested than remain,
leaves the deck untouched on that error path, and otherwise returns exactly
`n` cards while the deck shrinks by exactly `n`. -/
theorem deal_contract (deck : List Card) (n : Nat) :
    ((deal deck n).1 = none ↔ deck.length < n) ∧
    ((deal deck n).1 = none → (deal deck n).2 = deck) ∧
    (∀ dealt, (deal deck n).1 = some dealt →
      dealt.length = n ∧ (deal deck n).2.length = deck.length - n) := by
  by_cases h : deck.length < n
  · refine ⟨by simp [deal, h], by simp [deal, h], ?_⟩
    intro dealt hd
    simp [deal, h] at hd
  · have hn : n ≤ deck.length := Nat.le_of_not_lt h
    obtain ⟨ha, hb⟩ := dealGo_lengths n [] deck hn
    refine ⟨by simp [deal, h], by simp [deal, h], ?_⟩
    intro dealt hd
    simp only [deal, if_neg h] at hd ⊢
    simp only [Option.some.injEq] at hd
    constructor
    · rw [← hd, ha]
      simp
    · exact hb

/-- C8 witness: dealing 2 from a 3-card deck yields 2 cards and leaves 1. -/
theorem deal_contract_witness :
    ([⟨2, 2⟩, ⟨1, 1⟩] : List Card).length = 2 ∧
    (deal [⟨0, 0⟩, ⟨1, 1⟩, ⟨2, 2⟩] 2).2.length = ([⟨0, 0⟩, ⟨1, 1⟩, ⟨2, 2⟩] : List Card).length - 2 :=
  (deal_contract [⟨0, 0⟩, ⟨1, 1⟩, ⟨2, 2⟩] 2).2.2 [⟨2, 2⟩, ⟨1, 1⟩] (by decide)

/-- C9 helper: a `valueOf` result carries the requested category and a value in
`[base, base + 12/14]`, because every `value_index` is at most 12. -/
theorem valueOf_spec {r0 : PokerHand} {base : ℚ} {cards : List Card}
    {r : PokerHand} {v : ℚ} {b : List Card}
    (h : valueOf r0 base cards = some (r, v, b)) :
    r = r0 ∧ base ≤ v ∧ v ≤ base + 12 / 14 := by
  unfold valueOf at h
  cases hh : cards.head? with
  | none => rw [hh] at h; simp at h
  | some c =>
    rw [hh] at h
    simp only [Option.map_some', Option.some.injEq, Prod.mk.injEq] at h
    obtain ⟨h1, h2, _⟩ := h
    have hle : (c.value.val : ℚ) ≤ 12 := by
      have := c.value.isLt
      exact_mod_cast Nat.lt_succ_iff.mp this
    have hnn : (0 : ℚ) ≤ (c.value.val : ℚ) := by positivity
    refine ⟨h1.symm, ?_, ?_⟩
    · rw [← h2]; nlinarith
    · rw [← h2]; nlinarith

/-- C9 helper: the value returned by `evaluate_hand` always lies in
`[handOrder r, handOrder r + 12/14]` for the returned category `r`. -/
theorem evaluateHand_bounds {hole comm : List Card} {r : PokerHand} {v : ℚ}
    {b : List Card} (h : evaluateHand hole comm = some (r, v, b)) :
    (handOrder r : ℚ) ≤ v ∧ v ≤ (handOrder r : ℚ) + 12 / 14 := by
  unfold evaluateHand evaluateAll at h
  split at h
  · simp only [Option.some.injEq, Prod.mk.injEq] at h
    obtain ⟨h1, h2, _⟩ := h
    subst h1
    rw [← h2]
    norm_num [handOrder]
  split at h
  · obtain ⟨h1, h2, h3⟩ := valueOf_spec h
    subst h1
    exact ⟨by exact_mod_cast h2, by push_cast [handOrder]; linarith⟩
  split at h
  · obtain ⟨h1, h2, h3⟩ := valueOf_spec h
    subst h1
    exact ⟨by exact_mod_cast h2, by push_cast [handOrder]; linarith⟩
  · exact absurd h (by simp)
  split at h
  · obtain ⟨h1, h2, h3⟩ := valueOf_spec h
    subst h1
    exact ⟨by exact_mod_cast h2, by push_cast [handOrder]; linarith⟩
  split at h
  · obtain ⟨h1, h2, h3⟩ := valueOf_spec h
    subst h1
    exact ⟨by exact_mod_cast h2, by push_cast [handOrder]; linarith⟩
  split at h
  · obtain ⟨h1, h2, h3⟩ := valueOf_spec h
    subst h1
    exact ⟨by exact_mod_cast h2, by push_cast [handOrder]; linarith⟩
  split at h
  · obtain ⟨h1, h2, h3⟩ := valueOf_spec h
    subst h1
    exact ⟨by exact_mod_cast h2, by push_cast [handOrder]; linarith⟩
  split at h
  · obtain ⟨h1, h2, h3⟩ := valueOf_spec h
    subst h1
    exact ⟨by exact_mod_cast h2, by push_cast [handOrder]; linarith⟩
  · exact absurd h (by simp)
  split at h
  · obtain ⟨h1, h2, h3⟩ := valueOf_spec h
    subst h1
    exact ⟨by exact_mod_cast h2, by push_cast [handOrder]; linarith⟩
  · cases hh : (checkHighCard (hole ++ comm)).head? with
    | none => rw [hh] at h; simp at h
    | some c =>
      rw [hh] at h
      simp only [Option.map_some', Option.some.injEq, Prod.mk.injEq] at h
      obtain ⟨h1, h2, _⟩ := h
      subst h1
      have hle : (c.value.val : ℚ) ≤ 12 := by
        have := c.value.isLt
        exact_mod_cast Nat.lt_succ_iff.mp this
      have hnn : (0 : ℚ) ≤ (c.value.val : ℚ) := by positivity
      constructor
      · rw [← h2]; norm_num [handOrder]; positivity
      · rw [← h2]; norm_num [handOrder]; nlinarith

/-- C9: the numeric hand value orders category-first: whenever `evaluate_hand`
assigns one input a strictly higher category (in the fixed ten-category order)
than another, its numeric value is strictly greater, because each category's
value lies in `[base, base + 12/14]` for its own integer base. -/
theorem category_dominates_value
    (hole1 comm1 hole2 comm2 : List Card) (r1 r2 : PokerHand) (v1 v2 : ℚ)
    (b1 b2 : List Card)
    (h1 : evaluateHand hole1 comm1 = some (r1, v1, b1))
    (h2 : evaluateHand hole2 comm2 = some (r2, v2, b2))
    (hlt : handOrder r2 < handOrder r1) : v2 < v1 := by
  obtain ⟨l1, _⟩ := evaluateHand_bounds h1
  obtain ⟨_, u2⟩ := evaluateHand_bounds h2
  have hc : (handOrder r2 : ℚ) + 1 ≤ (handOrder r1 : ℚ) := by exact_mod_cast hlt
  linarith

/-- C9 witness: a Pair (value `1 + 12/14`) beats a High Card (value `12/14`)
on concrete seven-card inputs. -/
theorem category_dominates_value_witness : (12 : ℚ) / 14 < 1 + 12 / 14 :=
  category_dominates_value
    [⟨12, 0⟩, ⟨12, 1⟩] [⟨1, 2⟩, ⟨2, 3⟩, ⟨5, 0⟩]
    [⟨12, 0⟩, ⟨11, 1⟩] [⟨1, 2⟩, ⟨2, 3⟩, ⟨5, 0⟩]
    .PAIR .HIGH_CARD (1 + 12 / 14) (12 / 14)
    [⟨12, 0⟩, ⟨12, 1⟩, ⟨5, 0⟩, ⟨2, 3⟩, ⟨1, 2⟩]
    [⟨12, 0⟩, ⟨11, 1⟩, ⟨5, 0⟩, ⟨2, 3⟩, ⟨1, 2⟩]
    (by rfl) (by rfl) (by decide)

/-- C6 helper: replacing seat `i` changes the stack sum by the chip delta. -/
theorem stacksSum_set :
    ∀ (players : List PlayerState) (i : Nat) (q : PlayerState), i < players.length →
      stacksSum (players.set i q)
        = stacksSum players - (players.getD i default).chips + q.chips := by
  intro players
  induction players with
  | nil => intro i q hi; simp at hi
  | cons p ps ih =>
    intro i q hi
    cases i with
    | zero =>
      simp only [List.set, stacksSum, List.map_cons, List.sum_cons, List.getD_cons_zero]
      ring
    | succ j =>
      have hj : j < ps.length := by simpa using hi
      simp only [List.set, stacksSum, List.map_cons, List.sum_cons, List.getD_cons_succ]
      have hrec := ih j q hj
      simp only [stacksSum] at hrec
      rw [hrec]
      ring

/-- C6 helper: `parse_action` only ever answers ALL-IN with the seat's whole
stack (every ALL-IN path returns `self.chips`). -/
theorem parseAction_allin_amount (intent : Intent) (chips atc mr : Int)
    (h : (parseAction intent chips atc mr).1 = .ALL_IN) :
    (parseAction intent chips atc mr).2 = chips := by
  cases intent with
  | fold => simp [parseAction] at h
  | check =>
    simp only [parseAction] at h ⊢
    split at h <;> simp_all
  | call =>
    simp only [parseAction] at h ⊢
    split at h <;> simp_all
  | allin => rfl
  | betRaise betAmount raiseAmount =>
    cases betAmount with
    | some n =>
      cases raiseAmount with
      | some m =>
        simp only [parseAction, betBranch, raiseBranch, defaultAction] at h ⊢
        split_ifs at h ⊢ <;> simp_all
      | none =>
        simp only [parseAction, betBranch, defaultAction] at h ⊢
        split_ifs at h ⊢ <;> simp_all
    | none =>
      cases raiseAmount with
      | some m =>
        simp only [parseAction, raiseBranch] at h ⊢
        split_ifs at h ⊢ <;> simp_all
      | none =>
        simp only [parseAction, defaultAction] at h ⊢
        split_ifs at h ⊢
        all_goals simp_all

/-- C6 helper: processing any action whose ALL-IN amount is the seat's stack
moves chips only between that stack and the pot. -/
theorem processAction_conserves (st : GameState) (i : Nat) (a : PokerAction × Int)
    (hi : i < st.players.length)
    (hall : a.1 = .ALL_IN → a.2 = (st.players.getD i default).chips) :
    stacksSum (processAction st i a).players + (processAction st i a).pot
      = stacksSum st.players + st.pot := by
  obtain ⟨act, amt⟩ := a
  cases act with
  | FOLD =>
    simp only [processAction]
    rw [stacksSum_set _ _ _ hi]
    ring
  | CHECK => rfl
  | CALL =>
    simp only [processAction]
    rw [stacksSum_set _ _ _ hi]
    ring
  | BET =>
    simp only [processAction]
    rw [stacksSum_set _ _ _ hi]
    ring
  | RAISE =>
    simp only [processAction]
    rw [stacksSum_set _ _ _ hi]
    ring
  | ALL_IN =>
    have hamt : amt = (st.players.getD i default).chips := hall rfl
    simp only [processAction]
    split
    all_goals rw [stacksSum_set _ _ _ hi, hamt]
    all_goals ring

/-- C6 helper: processing an action never changes the number of seats. -/
theorem processAction_length (st : GameState) (i : Nat) (a : PokerAction × Int) :
    (processAction st i a).players.length = st.players.length := by
  obtain ⟨act, amt⟩ := a
  cases act with
  | FOLD => simp [processAction]
  | CHECK => rfl
  | CALL => simp [processAction]
  | BET => simp [processAction]
  | RAISE => simp [processAction]
  | ALL_IN => simp only [processAction]; split <;> simp

/-- C6 helper: one accepted action (parse + process) conserves stacks + pot. -/
theorem actionStep_conserves (st : GameState) (i : Nat) (intent : Intent)
    (hi : i < st.players.length) :
    stacksSum (actionStep st i intent).players + (actionStep st i intent).pot
      = stacksSum st.players + st.pot := by
  unfold actionStep
  apply processAction_conserves _ _ _ hi
  intro h
  exact parseAction_allin_amount _ _ _ _ h

/-- C6 helper: an accepted action never changes the number of seats. -/
theorem actionStep_length (st : GameState) (i : Nat) (intent : Intent) :
    (actionStep st i intent).players.length = st.players.length :=
  processAction_length st i _

/-- C6 helper: the betting loop, when it exits, has conserved stacks + pot. -/
theorem bettingLoop_conserves (oracle : Nat → Intent) :
    ∀ (fuel k : Nat) (st : GameState) (b : Bool) (st1 : GameState),
      st.currentPlayerIndex < st.players.length →
      bettingLoop oracle fuel k st = some (b, st1) →
      stacksSum st1.players + st1.pot = stacksSum st.players + st.pot := by
  intro fuel
  induction fuel with
  | zero =>
    intro k st b st1 _ h
    exact absurd h (by simp [bettingLoop])
  | succ n ih =>
    intro k st b st1 hidx h
    have hpos : 0 < st.players.length := Nat.lt_of_le_of_lt (Nat.zero_le _) hidx
    rw [bettingLoop] at h
    simp only [] at h
    split at h
    · -- skip branch: folded or all-in seat, index advances
      have hidx2 : ((st.currentPlayerIndex + 1) % st.players.length) < st.players.length :=
        Nat.mod_lt _ hpos
      exact ih k
        { st with currentPlayerIndex := (st.currentPlayerIndex + 1) % st.players.length }
        b st1 hidx2 h
    · split at h
      · -- action returned to the last raiser
        simp only [Option.some.injEq, Prod.mk.injEq] at h
        rw [← h.2]
      · split at h
        · -- everyone acted, no outstanding bet
          simp only [Option.some.injEq, Prod.mk.injEq] at h
          rw [← h.2]
        · -- the seat acts
          split at h
          · simp only [Option.some.injEq, Prod.mk.injEq] at h
            rw [← h.2]
            exact actionStep_conserves st st.currentPlayerIndex (oracle k) hidx
          · have hstep := actionStep_conserves st st.currentPlayerIndex (oracle k) hidx
            have hidx2 : ((st.currentPlayerIndex + 1) % st.players.length)
                < (actionStep st st.currentPlayerIndex (oracle k)).players.length := by
              rw [actionStep_length]
              exact Nat.mod_lt _ hpos
            have hrec := ih (k + 1)
              { actionStep st st.currentPlayerIndex (oracle k) with
                currentPlayerIndex := (st.currentPlayerIndex + 1) % st.players.length }
              b st1 hidx2 h
            calc stacksSum st1.players + st1.pot
                = stacksSum (actionStep st st.currentPlayerIndex (oracle k)).players
                    + (actionStep st st.currentPlayerIndex (oracle k)).pot := hrec
              _ = stacksSum st.players + st.pot := hstep

/-- C6 helper: zeroing the round bets changes neither stacks nor pot. -/
theorem resetBets_sum (st : GameState) :
    stacksSum (resetBets st).players = stacksSum st.players := by
  simp only [resetBets, stacksSum, List.map_map]
  rfl

/-- C6 helper: the post-flop positioning scan returns an in-range index. -/
theorem seekEligible_lt (players : List PlayerState) (start : Nat) :
    ∀ (fuel j : Nat), j < players.length →
      seekEligible players start fuel j = some r → r < players.length := by
  intro fuel
  induction fuel with
  | zero => intro j _ h; exact absurd h (by simp [seekEligible])
  | succ n ih =>
    intro j hj h
    rw [seekEligible] at h
    simp only [] at h
    split at h
    · simp only [Option.some.injEq] at h
      rw [← h]
      exact hj
    · split at h
      · exact absurd h (by simp)
      · exact ih _ (Nat.mod_lt _ (Nat.lt_of_le_of_lt (Nat.zero_le _) hj)) h

/-- C6 helper: a completed betting round conserves stacks + pot. -/
theorem executeBettingRound_conserves (oracle : Nat → Intent) (fuel : Nat)
    (isPreflop : Bool) (st : GameState) (b : Bool) (st1 : GameState)
    (hidx : st.currentPlayerIndex < st.players.length)
    (h : executeBettingRound oracle fuel isPreflop st = some (b, st1)) :
    stacksSum st1.players + st1.pot = stacksSum st.players + st.pot := by
  have hpos : 0 < st.players.length := Nat.lt_of_le_of_lt (Nat.zero_le _) hidx
  unfold executeBettingRound at h
  split at h
  · simp only [Option.some.injEq, Prod.mk.injEq] at h
    rw [← h.2]
  · simp only [] at h
    split at h
    · -- positioning failed: round returned the reset state
      simp only [Option.some.injEq, Prod.mk.injEq] at h
      rw [← h.2, resetBets_sum]
      rfl
    · -- positioning produced a start state, the loop ran
      rename_i stX hX
      have hlenX : stX.players.length = st.players.length ∧
          stX.currentPlayerIndex < stX.players.length ∧
          stacksSum stX.players + stX.pot = stacksSum st.players + st.pot := by
        by_cases hp : isPreflop = true
        · rw [if_pos hp] at hX
          simp only [Option.some.injEq] at hX
          rw [← hX]
          refine ⟨by simp [resetBets], by simpa [resetBets] using hidx, ?_⟩
          rw [resetBets_sum]
          rfl
        · rw [if_neg hp] at hX
          obtain ⟨j, hseek, hj⟩ := Option.map_eq_some'.mp hX
          have hstart : ((resetBets st).dealerPosition + 1) % (resetBets st).players.length
              < (resetBets st).players.length := by
            apply Nat.mod_lt
            simpa [resetBets] using hpos
          have hjlt : j < (resetBets st).players.length :=
            seekEligible_lt (resetBets st).players _ _ _ hstart hseek
          rw [← hj]
          refine ⟨by simp [resetBets], by simpa [resetBets] using hjlt, ?_⟩
          show stacksSum (resetBets st).players + (resetBets st).pot
            = stacksSum st.players + st.pot
          rw [resetBets_sum]
          rfl
      obtain ⟨hl, hix, hsum⟩ := hlenX
      have := bettingLoop_conserves oracle fuel 0 { stX with lastRaiser := none } b st1
        (by simpa using hix) h
      calc stacksSum st1.players + st1.pot
          = stacksSum stX.players + stX.pot := this
        _ = stacksSum st.players + st.pot := hsum

/-- C6 helper: posting the two blinds moves chips only from stacks to pot. -/
theorem postBlinds_conserves (sb bb : Int) (st : GameState)
    (hpos : 0 < st.players.length) :
    stacksSum (postBlinds sb bb st).players + (postBlinds sb bb st).pot
      = stacksSum st.players + st.pot := by
  have h1 : (st.dealerPosition + 1) % st.players.length < st.players.length :=
    Nat.mod_lt _ hpos
  have h2 : (st.dealerPosition + 2) % st.players.length < st.players.length :=
    Nat.mod_lt _ hpos
  unfold postBlinds
  simp only []
  rw [stacksSum_set _ _ _ (by simpa using h2), stacksSum_set _ _ _ h1]
  ring

/-- C10/C6 helper: updating one in-range seat keeps the list length. -/
theorem awardGo_length (per rem : Int) :
    ∀ (ws : List Nat) (i0 : Nat) (players : List PlayerState),
      (awardGo per rem ws i0 players).length = players.length := by
  intro ws
  induction ws with
  | nil => intro i0 players; rfl
  | cons w ws2 ih =>
    intro i0 players
    rw [awardGo]
    rw [ih]
    exact List.length_set players w _

/-- C10/C6 helper: `getD` after `set` at the same in-range position. -/
theorem getD_set_self (l : List PlayerState) :
    ∀ (i : Nat) (q : PlayerState), i < l.length → (l.set i q).getD i default = q := by
  induction l with
  | nil => intro i q hi; simp at hi
  | cons p ps ih =>
    intro i q hi
    cases i with
    | zero => rfl
    | succ j =>
      have hj : j < ps.length := by simpa using hi
      simpa using ih j q hj

/-- C10/C6 helper: `getD` after `set` at a different position. -/
theorem getD_set_ne (l : List PlayerState) :
    ∀ (i j : Nat) (q : PlayerState), i ≠ j →
      (l.set i q).getD j default = l.getD j default := by
  induction l with
  | nil => intro i j q _; simp
  | cons p ps ih =>
    intro i j q hne
    cases i with
    | zero =>
      cases j with
      | zero => exact absurd rfl hne
      | succ j2 => rfl
    | succ i2 =>
      cases j with
      | zero => rfl
      | succ j2 =>
        have : i2 ≠ j2 := fun hh => hne (by rw [hh])
        simpa using ih i2 j2 q this

/-- C10 helper: seats outside the winner list are never touched by `awardGo`. -/
theorem awardGo_untouched (per rem : Int) :
    ∀ (ws : List Nat) (i0 : Nat) (players : List PlayerState) (x : Nat), x ∉ ws →
      (awardGo per rem ws i0 players).getD x default = players.getD x default := by
  intro ws
  induction ws with
  | nil => intro i0 players x _; rfl
  | cons w ws2 ih =>
    intro i0 players x hx
    simp only [List.mem_cons, not_or] at hx
    rw [awardGo]
    rw [ih _ _ x hx.2]
    exact getD_set_ne players w x _ (Ne.symm hx.1)

/-- C10 helper: the winner at list position `j` receives exactly
`per` plus one extra chip when its position is below `rem`. -/
theorem awardGo_get (per rem : Int) :
    ∀ (ws : List Nat) (players : List PlayerState) (i0 : Nat), ws.Nodup →
      (∀ w ∈ ws, w < players.length) →
      ∀ (j : Nat) (hj : j < ws.length),
        ((awardGo per rem ws i0 players).getD (ws.get ⟨j, hj⟩) default).chips
          = (players.getD (ws.get ⟨j, hj⟩) default).chips + per
            + (if ((i0 + j : Nat) : Int) < rem then 1 else 0) := by
  intro ws
  induction ws with
  | nil => intro players i0 _ _ j hj; simp at hj
  | cons w ws2 ih =>
    intro players i0 hnd hw j hj
    obtain ⟨hwnot, hnd2⟩ := List.nodup_cons.mp hnd
    rw [awardGo]
    cases j with
    | zero =>
      show ((awardGo per rem ws2 (i0 + 1) _).getD w default).chips = _
      rw [awardGo_untouched per rem ws2 (i0 + 1) _ w hwnot]
      rw [getD_set_self players w _ (hw w (by simp))]
      rw [show (w :: ws2).get ⟨0, hj⟩ = w from rfl]
      push_cast
      ring_nf
    | succ j2 =>
      have hj2 : j2 < ws2.length := by simpa using hj
      have hw2 : ∀ x ∈ ws2, x < (players.set w
          { players.getD w default with
            chips := (players.getD w default).chips
              + (per + if (i0 : Int) < rem then 1 else 0) }).length := by
        intro x hx
        rw [List.length_set]
        exact hw x (List.mem_cons_of_mem _ hx)
      have hrec := ih _ (i0 + 1) hnd2 hw2 j2 hj2
      show ((awardGo per rem ws2 (i0 + 1) _).getD (ws2.get ⟨j2, hj2⟩) default).chips = _
      rw [hrec]
      have hmem : ws2.get ⟨j2, hj2⟩ ∈ ws2 := List.get_mem ws2 j2 hj2
      have hne : w ≠ ws2.get ⟨j2, hj2⟩ := fun hh => hwnot (hh ▸ hmem)
      rw [getD_set_ne players w _ _ hne]
      have harith : ((i0 + 1 + j2 : Nat) : Int) = ((i0 + (j2 + 1) : Nat) : Int) := by
        push_cast
        ring
      rw [harith]
      rw [show (w :: ws2).get ⟨j2 + 1, hj⟩ = ws2.get ⟨j2, hj2⟩ from rfl]

/-- C10 helper: positions `i0, …, i0+len-1` with `rem ≤ position` get nothing. -/
theorem extrasFrom_of_le (rem : Int) :
    ∀ (len i : Nat), rem ≤ (i : Int) → extrasFrom rem i len = 0 := by
  intro len
  induction len with
  | zero => intro i _; rfl
  | succ m ih =>
    intro i hi
    rw [extrasFrom, if_neg (by omega)]
    rw [ih (i + 1) (by push_cast; omega)]
    omega

/-- C10 helper: when `i0 ≤ rem ≤ i0 + len`, the extras given to positions
`i0, …, i0+len-1` total `rem - i0`. -/
theorem extrasFrom_count (rem : Int) :
    ∀ (len i : Nat), (i : Int) ≤ rem → rem ≤ (i : Int) + len →
      extrasFrom rem i len = rem - i := by
  intro len
  induction len with
  | zero =>
    intro i h1 h2
    rw [show extrasFrom rem i 0 = 0 from rfl]
    push_cast at h2
    omega
  | succ m ih =>
    intro i h1 h2
    by_cases hlt : (i : Int) < rem
    · rw [extrasFrom, if_pos hlt]
      rw [ih (i + 1) (by push_cast; omega) (by push_cast at h2 ⊢; omega)]
      push_cast
      omega
    · have heq : rem = i := by omega
      rw [extrasFrom, if_neg hlt, extrasFrom_of_le rem m (i + 1) (by push_cast; omega)]
      omega

/-- C10/C6 helper: `awardGo` adds `len·per` plus the remainder extras. -/
theorem awardGo_sum (per rem : Int) :
    ∀ (ws : List Nat) (players : List PlayerState) (i0 : Nat),
      (∀ w ∈ ws, w < players.length) →
      stacksSum (awardGo per rem ws i0 players)
        = stacksSum players + ws.length * per + extrasFrom rem i0 ws.length := by
  intro ws
  induction ws with
  | nil => intro players i0 _; simp [awardGo, extrasFrom]
  | cons w ws2 ih =>
    intro players i0 hw
    rw [awardGo]
    have hw2 : ∀ x ∈ ws2, x < (players.set w
        { players.getD w default with
          chips := (players.getD w default).chips
            + (per + if (i0 : Int) < rem then 1 else 0) }).length := by
      intro x hx
      rw [List.length_set]
      exact hw x (List.mem_cons_of_mem _ hx)
    rw [ih _ (i0 + 1) hw2]
    rw [stacksSum_set players w _ (hw w (by simp))]
    rw [show extrasFrom rem i0 (w :: ws2).length
        = (if (i0 : Int) < rem then 1 else 0) + extrasFrom rem (i0 + 1) ws2.length from rfl]
    simp only [List.length_cons]
    push_cast
    ring

/-- C10/C6 helper: `award_pot` hands out exactly the pot. -/
theorem awardPot_sum (st : GameState) (winners : List Nat) (hne : winners ≠ [])
    (hw : ∀ w ∈ winners, w < st.players.length) :
    stacksSum (awardPot st winners).players = stacksSum st.players + st.pot := by
  have hlen : 0 < winners.length := List.length_pos.mpr hne
  have hlen' : (0 : Int) < (winners.length : Int) := by exact_mod_cast hlen
  unfold awardPot
  rw [if_neg (by simpa [List.isEmpty_iff] using hne)]
  simp only []
  rw [awardGo_sum _ _ winners st.players 0 hw]
  have hrem0 : 0 ≤ st.pot.fmod winners.length := Int.fmod_nonneg' st.pot hlen'
  have hremlt : st.pot.fmod winners.length < winners.length :=
    Int.fmod_lt_of_pos st.pot hlen'
  rw [extrasFrom_count _ winners.length 0 (by push_cast; omega) (by push_cast; omega)]
  have hdm := Int.fdiv_add_fmod st.pot winners.length
  push_cast
  omega

/-- C6: chip conservation. Relative to any in-hand state, (i) every accepted
action (parse + process) keeps stacks + pot constant, (ii) posting the blinds
keeps stacks + pot constant, (iii) any betting round that exits returns a state
with the same stacks + pot, and (iv) awarding the pot to any non-empty list of
distinct winners raises the stack total by exactly the pot, so after the award
the stacks sum to the hand-start total. -/
theorem chip_conservation (st : GameState)
    (hidx : st.currentPlayerIndex < st.players.length) :
    (∀ (i : Nat) (intent : Intent), i < st.players.length →
        stacksSum (actionStep st i intent).players + (actionStep st i intent).pot
          = stacksSum st.players + st.pot) ∧
    (∀ sb bb : Int,
        stacksSum (postBlinds sb bb st).players + (postBlinds sb bb st).pot
          = stacksSum st.players + st.pot) ∧
    (∀ (oracle : Nat → Intent) (fuel : Nat) (isPreflop : Bool) (b : Bool)
        (st1 : GameState),
        executeBettingRound oracle fuel isPreflop st = some (b, st1) →
        stacksSum st1.players + st1.pot = stacksSum st.players + st.pot) ∧
    (∀ winners : List Nat, winners ≠ [] → winners.Nodup →
        (∀ w ∈ winners, w < st.players.length) →
        stacksSum (awardPot st winners).players = stacksSum st.players + st.pot) := by
  have hpos : 0 < st.players.length := Nat.lt_of_le_of_lt (Nat.zero_le _) hidx
  refine ⟨?_, ?_, ?_, ?_⟩
  · intro i intent hi
    exact actionStep_conserves st i intent hi
  · intro sb bb
    exact postBlinds_conserves sb bb st hpos
  · intro oracle fuel isPreflop b st1 h
    exact executeBettingRound_conserves oracle fuel isPreflop st b st1 hidx h
  · intro winners hne hnd hw
    exact awardPot_sum st winners hne hw

/-- C6 witness: conservation instantiated on a concrete two-seat state — the
blinds conserve stacks + pot, and awarding the pot to seat 0 returns the stack
total to stacks-plus-pot. -/
theorem chip_conservation_witness :
    stacksSum (awardPot twoSeatState [0]).players
        = stacksSum twoSeatState.players + twoSeatState.pot ∧
    stacksSum (postBlinds 5 10 twoSeatState).players
        + (postBlinds 5 10 twoSeatState).pot
      = stacksSum twoSeatState.players + twoSeatState.pot :=
  ⟨(chip_conservation twoSeatState (by decide)).2.2.2 [0] (by decide) (by decide)
      (by decide),
   (chip_conservation twoSeatState (by decide)).2.1 5 10⟩

/-- C10 helper: stable insertion permutes. -/
theorem insDesc_perm {α β : Type} [LinearOrder β] (key : α → β) (a : α) :
    ∀ l : List α, List.Perm (insDesc key a l) (a :: l) := by
  intro l
  induction l with
  | nil => exact List.Perm.refl _
  | cons b bs ih =>
    rw [insDesc]
    split
    · exact List.Perm.refl _
    · exact (List.Perm.cons b ih).trans (List.Perm.swap a b bs)

/-- C10 helper: the modelled Python sort permutes its input. -/
theorem pySortDesc_perm {α β : Type} [LinearOrder β] (key : α → β) :
    ∀ l : List α, List.Perm (pySortDesc key l) l := by
  intro l
  induction l with
  | nil => exact List.Perm.refl _
  | cons x xs ih =>
    exact (insDesc_perm key x (pySortDesc key xs)).trans (List.Perm.cons x ih)

/-- C10 helper: stable insertion preserves descending sortedness. -/
theorem insDesc_sorted {α β : Type} [LinearOrder β] (key : α → β) (a : α) :
    ∀ l : List α, List.Sorted (fun x y => key y ≤ key x) l →
      List.Sorted (fun x y => key y ≤ key x) (insDesc key a l) := by
  intro l
  induction l with
  | nil => intro _; exact List.sorted_singleton a
  | cons b bs ih =>
    intro h
    obtain ⟨hb, hbs⟩ := List.sorted_cons.mp h
    rw [insDesc]
    split
    · rename_i hba
      refine List.sorted_cons.mpr ⟨?_, h⟩
      intro x hx
      rcases List.mem_cons.mp hx with hx | hx
      · rw [hx]; exact hba
      · exact le_trans (hb x hx) hba
    · rename_i hba
      refine List.sorted_cons.mpr ⟨?_, ih hbs⟩
      intro x hx
      rcases List.mem_cons.mp ((insDesc_perm key a bs).mem_iff.mp hx) with hx | hx
      · rw [hx]; exact le_of_not_le hba
      · exact hb x hx

/-- C10 helper: the modelled Python sort is descending by key. -/
theorem pySortDesc_sorted {α β : Type} [LinearOrder β] (key : α → β) :
    ∀ l : List α, List.Sorted (fun x y => key y ≤ key x) (pySortDesc key l) := by
  intro l
  induction l with
  | nil => simp [pySortDesc]
  | cons x xs ih => exact insDesc_sorted key x (pySortDesc key xs) ih

/-- C10 helper: inserting an element whose key misses `m` leaves the `key = m`
filtrate unchanged. -/
theorem filter_insDesc_of_ne {α β : Type} [LinearOrder β] (key : α → β) (m : β)
    (a : α) (ha : key a ≠ m) :
    ∀ l : List α,
      (insDesc key a l).filter (fun x => decide (key x = m))
        = l.filter (fun x => decide (key x = m)) := by
  intro l
  induction l with
  | nil => simp [insDesc, ha]
  | cons b bs ih =>
    rw [insDesc]
    split
    · simp [List.filter_cons, ha]
    · simp only [List.filter_cons]
      rw [ih]

/-- C10 helper: inserting a maximal-key element puts it in front. -/
theorem insDesc_of_max {α β : Type} [LinearOrder β] (key : α → β) (m : β) (a : α)
    (ha : key a = m) :
    ∀ l : List α, (∀ x ∈ l, key x ≤ m) → insDesc key a l = a :: l := by
  intro l hl
  cases l with
  | nil => rfl
  | cons b bs =>
    rw [insDesc, if_pos]
    rw [ha]
    exact hl b (by simp)

/-- C10 helper — stability: filtering the maximal key out of the sorted list
gives exactly the same sublist, in the same order, as filtering the input. -/
theorem filter_pySortDesc {α β : Type} [LinearOrder β] (key : α → β) (m : β) :
    ∀ l : List α, (∀ x ∈ l, key x ≤ m) →
      (pySortDesc key l).filter (fun x => decide (key x = m))
        = l.filter (fun x => decide (key x = m)) := by
  intro l
  induction l with
  | nil => intro _; rfl
  | cons x xs ih =>
    intro hl
    have hxs : ∀ y ∈ xs, key y ≤ m := fun y hy => hl y (List.mem_cons_of_mem _ hy)
    have hsortxs : ∀ y ∈ pySortDesc key xs, key y ≤ m :=
      fun y hy => hxs y ((pySortDesc_perm key xs).mem_iff.mp hy)
    by_cases hx : key x = m
    · rw [show pySortDesc key (x :: xs) = insDesc key x (pySortDesc key xs) from rfl]
      rw [insDesc_of_max key m x hx (pySortDesc key xs) hsortxs]
      have hpx : decide (key x = m) = true := by simp [hx]
      calc (x :: pySortDesc key xs).filter (fun y => decide (key y = m))
          = x :: (pySortDesc key xs).filter (fun y => decide (key y = m)) := by
            simp [List.filter_cons, hpx]
        _ = x :: xs.filter (fun y => decide (key y = m)) := by rw [ih hxs]
        _ = (x :: xs).filter (fun y => decide (key y = m)) := by
            simp [List.filter_cons, hpx]
    · rw [show pySortDesc key (x :: xs) = insDesc key x (pySortDesc key xs) from rfl]
      rw [filter_insDesc_of_ne key m x hx (pySortDesc key xs), ih hxs]
      simp [List.filter_cons, hx]

/-- C10 helper: `determine_winners` returns the tied-for-best seats in table
order — its output is a sublist of the input sequence (Python's sort is
stable, so the equal-valued winners keep their original relative order). -/
theorem determineWinners_sublist (entries : List (Nat × ℚ)) :
    List.Sublist (determineWinners entries) (entries.map Prod.fst) := by
  unfold determineWinners
  split
  · exact List.nil_sublist _
  · rename_i top rest heq
    have hsorted := pySortDesc_sorted (fun e : Nat × ℚ => e.2) entries
    rw [heq] at hsorted
    have hrest := (List.sorted_cons.mp hsorted).1
    have hall : ∀ x ∈ entries, x.2 ≤ top.2 := by
      intro x hx
      have hx2 : x ∈ top :: rest := by
        rw [← heq]
        exact ((pySortDesc_perm (fun e : Nat × ℚ => e.2) entries).symm.mem_iff).mp hx
      rcases List.mem_cons.mp hx2 with hx2 | hx2
      · rw [hx2]
      · exact hrest x hx2
    have hfil := filter_pySortDesc (fun e : Nat × ℚ => e.2) top.2 entries hall
    rw [heq] at hfil
    rw [hfil]
    exact (List.filter_sublist _).map Prod.fst

/-- C10: for a non-empty winner list of size `n` and pot `p`, `award_pot` gives
the winner at list position `j` exactly `p // n` chips plus one extra chip
when `j < p mod n` (so the first `p mod n` winners get the remainder), the
stack total rises by exactly `p`, and the winner list produced by
`determine_winners` is in table-position order (a sublist of the seat order it
was given). -/
theorem award_pot_split (st : GameState) (winners : List Nat) (hne : winners ≠ [])
    (hnd : winners.Nodup) (hw : ∀ w ∈ winners, w < st.players.length) :
    (∀ (j : Nat) (hj : j < winners.length),
        ((awardPot st winners).players.getD (winners.get ⟨j, hj⟩) default).chips
          = (st.players.getD (winners.get ⟨j, hj⟩) default).chips
            + st.pot.fdiv winners.length
            + (if (j : Int) < st.pot.fmod winners.length then 1 else 0)) ∧
    stacksSum (awardPot st winners).players = stacksSum st.players + st.pot ∧
    (∀ entries : List (Nat × ℚ),
        List.Sublist (determineWinners entries) (entries.map Prod.fst)) := by
  refine ⟨?_, awardPot_sum st winners hne hw, fun entries => determineWinners_sublist entries⟩
  intro j hj
  unfold awardPot
  rw [if_neg (by simpa [List.isEmpty_iff] using hne)]
  simp only []
  have hget := awardGo_get (st.pot.fdiv winners.length) (st.pot.fmod winners.length)
    winners st.players 0 hnd hw j hj
  simpa using hget

/-- C10 witness: an 11-chip pot split between seats 0 and 2 of a three-seat
table raises the stack total by exactly 11. -/
theorem award_pot_split_witness :
    stacksSum (awardPot awardDemoState [0, 2]).players
      = stacksSum awardDemoState.players + awardDemoState.pot :=
  (award_pot_split awardDemoState [0, 2] (by decide) (by decide) (by decide)).2.1

end LLMPoker
